import Mathlib

/-
Shallow embedding of the Hyperactive particle-swarm optimizer
(src/hyperactive/particle_swarm_optimization.py) and of the driver entry
point (src/hyperactive/hyperactive.py), together with a model of the
evaluation cache described by the specification (the cache itself lives in
the repository's base module, which is not part of the given sources).

Conventions:
 - machine floats are modelled as rationals;
 - a Position is a list of integers, a velocity a list of rationals;
 - the pseudo-random stream rnd.random() is an abstract function from the
   draw index to a rational, threaded through the computation by an index;
 - Python runtime failures (AttributeError, TypeError on None, decoding an
   out-of-range index) are modelled with an explicit error type.
-/

namespace Hyperactive

/-- Runtime errors of the modelled Python code. -/
inductive PyErr where
  | attributeError
  | typeErrorNoneSub
  | typeErrorNoneDecode
  | indexOutOfBounds
  deriving Repr, DecidableEq

/-- A particle of the swarm (class Particle).  The Python object also carries
train_time and sklearn_model metadata, which no tracked state reads; they are
omitted.  best_score is None until the first evaluation writes it. -/
structure Particle where
  pos : List ℤ
  velo : List ℚ
  best_pos : List ℤ
  best_score : Option ℚ
  deriving Repr, DecidableEq

/-- Truncation toward zero of a rational, the behaviour of numpy
astype(int) used in Particle.move: the fractional part is discarded,
so -0.7 becomes 0 and 2.9 becomes 2.  Int.tdiv is T-division. -/
def ratTrunc (q : ℚ) : ℤ := Int.tdiv q.num q.den

/-- Pointwise sum of an integer position and a rational velocity,
the expression self.pos + self.velo inside Particle.move. -/
def vecAddIR (p : List ℤ) (v : List ℚ) : List ℚ :=
  List.zipWith (fun (a : ℤ) (b : ℚ) => (a : ℚ) + b) p v

/-- Particle.move: self.pos = (self.pos + self.velo).astype(int). -/
def Particle.move (p : Particle) : Particle :=
  { p with pos := (vecAddIR p.pos p.velo).map ratTrunc }

/-- Scalar times velocity vector (numpy scalar * array). -/
def smulVec (c : ℚ) (v : List ℚ) : List ℚ := v.map (fun x => c * x)

/-- Pointwise sum of two rational vectors (numpy array + array). -/
def addVec (a b : List ℚ) : List ℚ := List.zipWith (fun x y => x + y) a b

/-- np.subtract of two integer positions, promoted to rationals so the
result can be scaled by the random coefficients. -/
def subIntVec (a b : List ℤ) : List ℚ :=
  List.zipWith (fun x y => ((x - y : ℤ) : ℚ)) a b

/-- The all-zeros velocity vector, np.zeros(n). -/
def zeros (n : ℕ) : List ℚ := List.replicate n 0

/-- Inertia coefficient W = 0.5 hard-coded in _move_particles. -/
def W : ℚ := 1/2

/-- Cognitive coefficient c1 = 0.8 hard-coded in _move_particles. -/
def c1 : ℚ := 4/5

/-- Social coefficient c2 = 0.9 hard-coded in _move_particles. -/
def c2 : ℚ := 9/10

/-- Body of the _move_particles loop for one particle: velocity update
A + B + C followed by Particle.move.  The coefficients and the two random
draws r1, r2 are parameters; the caller supplies the hard-coded W, c1, c2
and two fresh draws of the stream. -/
def moveParticle (w u1 u2 r1 r2 : ℚ) (g : List ℤ) (p : Particle) : Particle :=
  let A := smulVec w p.velo
  let B := smulVec (u1 * r1) (subIntVec p.best_pos p.pos)
  let C := smulVec (u2 * r2) (subIntVec g p.pos)
  let newVelocity := addVec (addVec A B) C
  Particle.move { p with velo := newVelocity }

/-- The _move_particles loop over the particle list.  rand is the abstract
rnd.random() stream and k the index of the next unconsumed draw; each
particle consumes two fresh draws (r1 at index k, r2 at index k+1). -/
def moveParticles (w u1 u2 : ℚ) (rand : ℕ → ℚ) (g : List ℤ) :
    List Particle → ℕ → List Particle × ℕ
  | [], k => ([], k)
  | p :: ps, k =>
    let p2 := moveParticle w u1 u2 (rand k) (rand (k+1)) g p
    let rest := moveParticles w u1 u2 rand g ps (k+2)
    (p2 :: rest.1, rest.2)

/-- The _move_particles call as the driver sees it: self.best_pos is still
None when no particle has ever improved on the initial score 0, and
np.subtract(None, p.pos) then raises a TypeError as soon as there is a
particle to move. -/
def movePhase (w u1 u2 : ℚ) (rand : ℕ → ℚ) (bp : Option (List ℤ)) :
    List Particle → ℕ → Except PyErr (List Particle × ℕ)
  | [], k => .ok ([], k)
  | p :: ps, k =>
    match bp with
    | none => .error PyErr.typeErrorNoneSub
    | some g => .ok (moveParticles w u1 u2 rand g (p :: ps) k)

/-- Modelled from the spec: the base-class helper _limit_pos (the base
module is not among the given sources).  Positions are clamped so that
each component is a valid integer index in [0, len(dimension.values)-1];
dims lists the value-sequence length of each dimension. -/
def limitPos : List ℕ → List ℤ → List ℤ
  | d :: ds, x :: xs => max 0 (min x ((d : ℤ) - 1)) :: limitPos ds xs
  | _, _ => []

/-- Boolean check that a position is a componentwise valid index vector
for the given dimension sizes (the decode precondition of the spec). -/
def validPos : List ℕ → List ℤ → Bool
  | [], [] => true
  | d :: ds, x :: xs => (decide (0 ≤ x) && decide (x < (d : ℤ))) && validPos ds xs
  | _, _ => false

/-- Modelled from the spec: the base-class helper _get_random_position
(base module not among the given sources); random_position() returns a
uniformly random valid Position.  Uniform randomness is abstracted as a
draw stream; component i is draw i reduced modulo the dimension size,
which keeps every component a valid index. -/
def randomPositionAux (draw : ℕ → ℕ) : ℕ → List ℕ → List ℤ
  | _, [] => []
  | i, d :: ds => ((draw i % d : ℕ) : ℤ) :: randomPositionAux draw (i+1) ds

/-- Random valid position over the given dimension sizes. -/
def randomPosition (dims : List ℕ) (draw : ℕ → ℕ) : List ℤ :=
  randomPositionAux draw 0 dims

/-- The _init_particles method: every particle gets a random position, a
second independent random position as its recorded best, and the zero
velocity vector np.zeros(dim).  draw i is the stream feeding the i-th
random-position call. -/
def initParticles (nParticles : ℕ) (dims : List ℕ) (draw : ℕ → ℕ → ℕ) :
    List Particle :=
  (List.range nParticles).map fun i =>
    { pos := randomPosition dims (draw (2*i))
      velo := zeros dims.length
      best_pos := randomPosition dims (draw (2*i+1))
      best_score := none }

/-- The _eval_particles loop: for each particle the position is clamped by
_limit_pos, decoded, and the model is trained; the returned score is
written into p.best_score unconditionally (and train_time / sklearn_model,
omitted here).  score abstracts decode-plus-train as a function from the
clamped position to the returned score. -/
def evalParticles (score : List ℤ → ℚ) (dims : List ℕ) (ps : List Particle) :
    List Particle :=
  ps.map fun p => { p with best_score := some (score (limitPos dims p.pos)) }

/-- The positions handed to the evaluation boundary by one _eval_particles
pass (ghost instrumentation used to reason about evaluator calls). -/
def evalPositions (dims : List ℕ) (ps : List Particle) : List (List ℤ) :=
  ps.map fun p => limitPos dims p.pos

/-- The _find_best_particle loop: scan the particles in order and replace
(self.best_score, self.best_pos) whenever p.best_score is strictly greater
than the current best score, copying both fields together.  A particle
whose best_score is still None is modelled as not updating (in the driver
the scan always runs after _eval_particles, so that case is unreachable). -/
def findBestParticle : List Particle → ℚ → Option (List ℤ) →
    ℚ × Option (List ℤ)
  | [], bs, bp => (bs, bp)
  | p :: ps, bs, bp =>
    match p.best_score with
    | some s =>
      if s > bs then findBestParticle ps s (some p.best_pos)
      else findBestParticle ps bs bp
    | none => findBestParticle ps bs bp

/-- Optimizer-level mutable state: self.p_list, self.best_score
(initialised to 0) and self.best_pos (initialised to None). -/
structure SwarmState where
  particles : List Particle
  best_score : ℚ
  best_pos : Option (List ℤ)
  deriving Repr

/-- Result of running the optimization loop: final state, next unconsumed
random-draw index, the positions handed to the evaluation boundary, and
the error that aborted the loop, if any. -/
structure LoopOut where
  state : SwarmState
  key : ℕ
  trace : List (List ℤ)
  err : Option PyErr
  deriving Repr

/-- The for-loop of _start_particle_swarm_optimization: each step runs
_eval_particles, _find_best_particle, _move_particles in that order. -/
def psLoop (score : List ℤ → ℚ) (dims : List ℕ) (w u1 u2 : ℚ)
    (rand : ℕ → ℚ) : ℕ → SwarmState → ℕ → LoopOut
  | 0, st, k => ⟨st, k, [], none⟩
  | n+1, st, k =>
    let ps1 := evalParticles score dims st.particles
    let tr1 := evalPositions dims st.particles
    let best := findBestParticle ps1 st.best_score st.best_pos
    match movePhase w u1 u2 rand best.2 ps1 k with
    | .error e => ⟨⟨ps1, best.1, best.2⟩, k, tr1, some e⟩
    | .ok (ps2, k2) =>
      let out := psLoop score dims w u1 u2 rand n ⟨ps2, best.1, best.2⟩ k2
      ⟨out.state, out.key, tr1 ++ out.trace, out.err⟩

/-- Outcome of one whole optimizer job. -/
structure RunOut where
  state : SwarmState
  trace : List (List ℤ)
  result : Except PyErr ℚ
  deriving Repr

/-- The _start_particle_swarm_optimization method: n_steps is
int(n_searches / n_jobs) (floor division for the nonnegative integers
involved), particles are initialised, the loop runs n_steps times, and the
stored best position is decoded and re-evaluated at the end.  The final
decode _pos_np2values_dict(self.best_pos) is applied to self.best_pos
directly, with no _limit_pos call: decoding None fails (TypeError), and
per the spec decoding an out-of-range component fails IndexOutOfBounds. -/
def startPSO (score : List ℤ → ℚ) (dims : List ℕ) (w u1 u2 : ℚ)
    (rand : ℕ → ℚ) (draw : ℕ → ℕ → ℕ)
    (nSearches nJobs nParticles : ℕ) : RunOut :=
  let nSteps := nSearches / nJobs
  let st0 : SwarmState := ⟨initParticles nParticles dims draw, 0, none⟩
  let out := psLoop score dims w u1 u2 rand nSteps st0 0
  match out.err with
  | some e => ⟨out.state, out.trace, .error e⟩
  | none =>
    match out.state.best_pos with
    | none => ⟨out.state, out.trace, .error PyErr.typeErrorNoneDecode⟩
    | some bp =>
      if validPos dims bp then ⟨out.state, out.trace ++ [bp], .ok (score bp)⟩
      else ⟨out.state, out.trace, .error PyErr.indexOutOfBounds⟩

/-- An in-run evaluation cache: association list from exact Positions to
scores (metadata omitted), most recent entry first. -/
abbrev Cache := List (List ℤ × ℚ)

/-- Exact-match lookup in the cache. -/
def lookupCache : Cache → List ℤ → Option ℚ
  | [], _ => none
  | (p, s) :: c, q => if p = q then some s else lookupCache c q

/-- Modelled from the spec: the Evaluation Cache operation
get_or_evaluate(position, evaluator) of the base module (not among the
given sources, only its caller _train_model's call sites are visible): a
cached position returns the stored score with no evaluator call, an
uncached one calls the evaluator once and stores the result.  The third
component counts the evaluator calls made (0 or 1). -/
def getOrEvaluate (f : List ℤ → ℚ) (c : Cache) (q : List ℤ) :
    ℚ × Cache × ℕ :=
  match lookupCache c q with
  | some s => (s, c, 0)
  | none => (f q, (q, f q) :: c, 1)

/-- A whole run's sequence of evaluation requests routed through the
cache, returning the final cache and the total number of evaluator
calls. -/
def runCache (f : List ℤ → ℚ) : List (List ℤ) → Cache → Cache × ℕ
  | [], c => (c, 0)
  | q :: qs, c =>
    let r := getOrEvaluate f c q
    let rest := runCache f qs r.2.1
    (rest.1, r.2.2 + rest.2)

/-- Results published by an optimizer object after its search ran
(attributes results_params, results_models, pos_list, score_list read by
Hyperactive.search).  The payload type is abstract. -/
structure OptResults (α : Type) where
  results_params : α
  results_models : α
  pos_list : α
  score_list : α
  deriving Repr, DecidableEq

/-- Attribute state of a Hyperactive object around one search call:
self._optimizer_ is absent (None here) on a fresh instance, and the four
result attributes are absent until a search call assigns them. -/
structure HyperState (α : Type) where
  optimizer : Option (OptResults α)
  results_params : Option α
  results_models : Option α
  pos_list : Option α
  score_list : Option α
  deriving Repr, DecidableEq

/-- Hyperactive.search after the argument bookkeeping: when the ray
backend is initialized (rayUp), the N optimizer jobs are dispatched with
optimizer_class.remote and awaited with ray.get, whose return value is
discarded, and self._optimizer_ is never assigned; otherwise the
optimizer runs locally and is assigned to self._optimizer_.  Either way
the method then reads self._optimizer_.results_params and its three
sibling attributes, which on a missing _optimizer_ raises
AttributeError.  runOpt stands for the optimizer object either branch
would produce. -/
def search {α : Type} (rayUp : Bool) (runOpt : OptResults α)
    (st : HyperState α) : Except PyErr (HyperState α) :=
  let st1 := if rayUp then st else { st with optimizer := some runOpt }
  match st1.optimizer with
  | none => .error PyErr.attributeError
  | some o =>
    .ok { st1 with
          results_params := some o.results_params
          results_models := some o.results_models
          pos_list := some o.pos_list
          score_list := some o.score_list }

/-- Per-particle structural invariant: position and velocity vectors have
the dimensionality of the search space and the recorded best position is
a valid index vector. -/
def PInv (dims : List ℕ) (p : Particle) : Prop :=
  p.pos.length = dims.length ∧ p.velo.length = dims.length ∧
    validPos dims p.best_pos = true

/-- Swarm-level structural invariant: every particle satisfies PInv and
the tracked global best position, when set, is a valid index vector. -/
def SInv (dims : List ℕ) (st : SwarmState) : Prop :=
  (∀ p ∈ st.particles, PInv dims p) ∧
  (∀ b, st.best_pos = some b → validPos dims b = true)

/-- The per-particle data unaffected by evaluation: position, velocity
and recorded best position (everything except the overwritten score). -/
def stripScore (p : Particle) : List ℤ × List ℚ × List ℤ :=
  (p.pos, p.velo, p.best_pos)

theorem ratTrunc_nonneg_eq_floor (q : ℚ) (h : 0 ≤ q) : ratTrunc q = ⌊q⌋ := by
  unfold ratTrunc
  rw [Int.tdiv_eq_ediv (Rat.num_nonneg.mpr h) (Int.natCast_nonneg q.den)]
  exact Rat.floor_def.symm

theorem ratTrunc_neg (q : ℚ) : ratTrunc (-q) = -ratTrunc q := by
  unfold ratTrunc
  rw [Rat.neg_num, Rat.neg_den, Int.neg_tdiv]

theorem ratTrunc_toward_zero (q : ℚ) :
    ratTrunc q = if 0 ≤ q then ⌊q⌋ else ⌈q⌉ := by
  split
  · exact ratTrunc_nonneg_eq_floor q (by assumption)
  · have hq : 0 ≤ -q := by linarith [not_le.mp (by assumption : ¬ 0 ≤ q)]
    have h2 := ratTrunc_nonneg_eq_floor (-q) hq
    rw [ratTrunc_neg] at h2
    have h3 : ratTrunc q = -⌊-q⌋ := by linarith [h2]
    rw [h3, Int.floor_neg, neg_neg]

theorem getElem?_vecAddIR :
    ∀ (a : List ℤ) (v : List ℚ) (i : ℕ) (x : ℤ) (y : ℚ),
      a[i]? = some x → v[i]? = some y → (vecAddIR a v)[i]? = some ((x : ℚ) + y)
  | [], _, i, _, _, ha, _ => by simp at ha
  | _ :: _, [], i, _, _, _, hv => by simp at hv
  | a :: as, b :: bs, 0, x, y, ha, hv => by
    simp only [List.getElem?_cons_zero, Option.some.injEq] at ha hv
    simp [vecAddIR, ha, hv]
  | a :: as, b :: bs, i+1, x, y, ha, hv => by
    simp only [List.getElem?_cons_succ] at ha hv
    simpa [vecAddIR] using getElem?_vecAddIR as bs i x y ha hv

/-- C6: the particle move operator converts pos + velocity to integer
components by truncation toward zero, not by rounding and not by floor:
after move, each stored position component is the integer part of the
corresponding real-valued sum, computed as in numpy astype(int); in
particular a component summing to -0.7 becomes 0 (where floor gives -1)
and one summing to 2.9 becomes 2. -/
theorem move_truncates_toward_zero :
    (∀ (p : Particle) (i : ℕ) (x : ℤ) (y : ℚ),
        p.pos[i]? = some x → p.velo[i]? = some y →
        (Particle.move p).pos[i]? = some (ratTrunc ((x : ℚ) + y))) ∧
    (∀ q : ℚ, ratTrunc q = if 0 ≤ q then ⌊q⌋ else ⌈q⌉) ∧
    ratTrunc (-7/10) = 0 ∧ ⌊(-7/10 : ℚ)⌋ = -1 ∧ ratTrunc (29/10) = 2 := by
  refine ⟨?_, ratTrunc_toward_zero, ?_, ?_, ?_⟩
  · intro p i x y hx hy
    have h := getElem?_vecAddIR p.pos p.velo i x y hx hy
    simp [Particle.move, List.getElem?_map, h]
  · rw [ratTrunc_toward_zero]
    rw [if_neg (by norm_num)]
    rw [Int.ceil_eq_iff]
    norm_num
  · rw [Int.floor_eq_iff]
    norm_num
  · rw [ratTrunc_toward_zero]
    rw [if_pos (by norm_num)]
    rw [Int.floor_eq_iff]
    norm_num

/-- C6 witness: a concrete particle with one dimension, position 2 and
velocity 0.9; after move the stored component is trunc(2.9) = 2. -/
theorem move_truncates_toward_zero_witness :
    (⟨[2], [9/10], [0], none⟩ : Particle).pos[0]? = some 2 ∧
    (⟨[2], [9/10], [0], none⟩ : Particle).velo[0]? = some (9/10) ∧
    (Particle.move ⟨[2], [9/10], [0], none⟩).pos[0]? =
      some (ratTrunc ((2 : ℤ) + (9/10 : ℚ))) :=
  ⟨rfl, rfl, move_truncates_toward_zero.1 ⟨[2], [9/10], [0], none⟩ 0 2 (9/10) rfl rfl⟩

/-- C1 evidence (code bug): _eval_particles writes the newly returned
score into p.best_score unconditionally, even when it is worse than the
recorded personal best, and it never updates p.best_pos.  Here the
recorded personal best score is 5, the new evaluation returns 3 < 5, and
after the pass the particle's best_score has been downgraded to 3 while
best_pos still holds the initial random position. -/
theorem evalParticles_overwrites_personal_best :
    (3 : ℚ) < 5 ∧
    evalParticles (fun _ => 3) [2]
        [{ pos := [0], velo := [0], best_pos := [1], best_score := some 5 }] =
      [{ pos := [0], velo := [0], best_pos := [1], best_score := some 3 }] :=
  ⟨by norm_num, rfl⟩

/-- C9: with the ray backend initialized, Hyperactive.search dispatches
the optimizer jobs remotely, discards the value of ray.get, never assigns
self._optimizer_, and then reads self._optimizer_.results_params: on a
fresh instance (no _optimizer_ attribute) this raises AttributeError and
no results are collected into the Hyperactive object. -/
theorem ray_search_attribute_error {α : Type} (runOpt : OptResults α)
    (st : HyperState α) (h : st.optimizer = none) :
    search true runOpt st = .error PyErr.attributeError := by
  simp [search, h]

/-- C9 witness: a fresh state with all attributes unset. -/
theorem ray_search_attribute_error_witness :
    (⟨none, none, none, none, none⟩ : HyperState ℕ).optimizer = none ∧
    search true (⟨0, 0, 0, 0⟩ : OptResults ℕ)
        (⟨none, none, none, none, none⟩ : HyperState ℕ) =
      .error PyErr.attributeError :=
  ⟨rfl, ray_search_attribute_error ⟨0, 0, 0, 0⟩ ⟨none, none, none, none, none⟩ rfl⟩

theorem moveParticles_getElem (w u1 u2 : ℚ) (rand : ℕ → ℚ) (g : List ℤ) :
    ∀ (ps : List Particle) (k i : ℕ) (p : Particle), ps[i]? = some p →
      (moveParticles w u1 u2 rand g ps k).1[i]? =
        some (moveParticle w u1 u2 (rand (k + 2*i)) (rand (k + 2*i + 1)) g p)
  | [], _, i, _, h => by simp at h
  | q :: ps, k, 0, p, h => by
    simp only [List.getElem?_cons_zero, Option.some.injEq] at h
    subst h
    simp [moveParticles]
  | q :: ps, k, i+1, p, h => by
    simp only [List.getElem?_cons_succ] at h
    have ih := moveParticles_getElem w u1 u2 rand g ps (k+2) i p h
    have e1 : k + 2 + 2*i = k + 2*(i+1) := by ring
    rw [e1] at ih
    simpa [moveParticles] using ih

/-- C2: in every _move_particles pass, the particle at index i has its
stored velocity replaced by W*v + c1*r1*(best_pos - pos) +
c2*r2*(best_pos_global - pos), where W, c1, c2 are the fixed coefficients
0.5, 0.8, 0.9 and r1, r2 are the two fresh draws of the random stream
consumed by that particle in that pass (indices k + 2*i and k + 2*i + 1);
the particle then moves using exactly this replaced velocity. -/
theorem pso_velocity_update (rand : ℕ → ℚ) (g : List ℤ) (ps : List Particle)
    (k i : ℕ) (p : Particle) (hp : ps[i]? = some p) :
    (moveParticles W c1 c2 rand g ps k).1[i]? =
      some { pos := (vecAddIR p.pos
                (addVec (addVec (smulVec W p.velo)
                    (smulVec (c1 * rand (k + 2*i)) (subIntVec p.best_pos p.pos)))
                  (smulVec (c2 * rand (k + 2*i + 1)) (subIntVec g p.pos)))).map ratTrunc
             velo := addVec (addVec (smulVec W p.velo)
                 (smulVec (c1 * rand (k + 2*i)) (subIntVec p.best_pos p.pos)))
               (smulVec (c2 * rand (k + 2*i + 1)) (subIntVec g p.pos))
             best_pos := p.best_pos
             best_score := p.best_score } := by
  rw [moveParticles_getElem W c1 c2 rand g ps k i p hp]
  rfl

/-- C2 witness: a concrete one-particle swarm. -/
theorem pso_velocity_update_witness :
    ([(⟨[1], [0], [0], none⟩ : Particle)][0]? = some (⟨[1], [0], [0], none⟩ : Particle)) ∧
    (moveParticles W c1 c2 (fun _ => 1/3) [2] [⟨[1], [0], [0], none⟩] 5).1[0]? =
      some { pos := (vecAddIR [1]
                (addVec (addVec (smulVec W [0])
                    (smulVec (c1 * (fun _ : ℕ => (1:ℚ)/3) (5 + 2*0)) (subIntVec [0] [1])))
                  (smulVec (c2 * (fun _ : ℕ => (1:ℚ)/3) (5 + 2*0 + 1)) (subIntVec [2] [1])))).map ratTrunc
             velo := addVec (addVec (smulVec W [0])
                 (smulVec (c1 * (fun _ : ℕ => (1:ℚ)/3) (5 + 2*0)) (subIntVec [0] [1])))
               (smulVec (c2 * (fun _ : ℕ => (1:ℚ)/3) (5 + 2*0 + 1)) (subIntVec [2] [1]))
             best_pos := [0]
             best_score := none } :=
  ⟨rfl, pso_velocity_update (fun _ => 1/3) [2] [⟨[1], [0], [0], none⟩] 5 0
    ⟨[1], [0], [0], none⟩ rfl⟩

/-- C10: the per-job step count is the floor of n_searches / n_jobs, so
whenever n_searches < n_jobs the loop body never runs: no particle is
ever evaluated (the evaluation trace is empty), self.best_pos is still
None at the end, and the final decode of the best position fails on the
None value. -/
theorem zero_steps_when_searches_lt_jobs (score : List ℤ → ℚ) (dims : List ℕ)
    (rand : ℕ → ℚ) (draw : ℕ → ℕ → ℕ) (nSearches nJobs nParticles : ℕ)
    (_hj : 0 < nJobs) (hlt : nSearches < nJobs) :
    nSearches / nJobs = 0 ∧
    (startPSO score dims W c1 c2 rand draw nSearches nJobs nParticles).trace = [] ∧
    (startPSO score dims W c1 c2 rand draw nSearches nJobs nParticles).state.best_pos = none ∧
    (startPSO score dims W c1 c2 rand draw nSearches nJobs nParticles).result =
      .error PyErr.typeErrorNoneDecode := by
  have h0 : nSearches / nJobs = 0 := Nat.div_eq_of_lt hlt
  refine ⟨h0, ?_, ?_, ?_⟩ <;> simp [startPSO, h0, psLoop]

/-- C10 witness: one search split over two jobs. -/
theorem zero_steps_when_searches_lt_jobs_witness :
    (0 < 2 ∧ 1 < 2) ∧
    ((1 : ℕ) / 2 = 0 ∧
      (startPSO (fun _ => 0) [3] W c1 c2 (fun _ => 0) (fun _ _ => 0) 1 2 1).trace = [] ∧
      (startPSO (fun _ => 0) [3] W c1 c2 (fun _ => 0) (fun _ _ => 0) 1 2 1).state.best_pos = none ∧
      (startPSO (fun _ => 0) [3] W c1 c2 (fun _ => 0) (fun _ _ => 0) 1 2 1).result =
        .error PyErr.typeErrorNoneDecode) :=
  ⟨⟨by decide, by decide⟩,
    zero_steps_when_searches_lt_jobs (fun _ => 0) [3] (fun _ => 0) (fun _ _ => 0) 1 2 1
      (by decide) (by decide)⟩

theorem findBest_le : ∀ (ps : List Particle) (bs : ℚ) (bp : Option (List ℤ)),
    bs ≤ (findBestParticle ps bs bp).1
  | [], _, _ => le_refl _
  | p :: ps, bs, bp => by
    unfold findBestParticle
    cases hs : p.best_score with
    | none => exact findBest_le ps bs bp
    | some s =>
      dsimp only
      by_cases h : s > bs
      · rw [if_pos h]
        exact le_trans (le_of_lt h) (findBest_le ps s (some p.best_pos))
      · rw [if_neg h]
        exact findBest_le ps bs bp

theorem findBest_char : ∀ (ps : List Particle) (bs : ℚ) (bp : Option (List ℤ)),
    findBestParticle ps bs bp = (bs, bp) ∨
    ∃ p ∈ ps, bs < (findBestParticle ps bs bp).1 ∧
      p.best_score = some (findBestParticle ps bs bp).1 ∧
      (findBestParticle ps bs bp).2 = some p.best_pos
  | [], _, _ => Or.inl rfl
  | p :: ps, bs, bp => by
    unfold findBestParticle
    cases hs : p.best_score with
    | none =>
      rcases findBest_char ps bs bp with h | ⟨q, hq, h1, h2, h3⟩
      · exact Or.inl h
      · exact Or.inr ⟨q, List.mem_cons_of_mem p hq, h1, h2, h3⟩
    | some s =>
      dsimp only
      by_cases h : s > bs
      · rw [if_pos h]
        rcases findBest_char ps s (some p.best_pos) with h0 | ⟨q, hq, h1, h2, h3⟩
        · refine Or.inr ⟨p, List.mem_cons_self p ps, ?_, ?_, ?_⟩ <;> rw [h0]
          · exact h
          · exact hs
        · exact Or.inr ⟨q, List.mem_cons_of_mem p hq, lt_trans h h1, h2, h3⟩
      · rw [if_neg h]
        rcases findBest_char ps bs bp with h0 | ⟨q, hq, h1, h2, h3⟩
        · exact Or.inl h0
        · exact Or.inr ⟨q, List.mem_cons_of_mem p hq, h1, h2, h3⟩

theorem psLoop_best_mono (score : List ℤ → ℚ) (dims : List ℕ) (w u1 u2 : ℚ)
    (rand : ℕ → ℚ) : ∀ (n : ℕ) (st : SwarmState) (k : ℕ),
    st.best_score ≤ (psLoop score dims w u1 u2 rand n st k).state.best_score
  | 0, _, _ => le_refl _
  | n+1, st, k => by
    have h1 := findBest_le (evalParticles score dims st.particles)
      st.best_score st.best_pos
    unfold psLoop
    dsimp only
    split
    · exact h1
    · next ps2 k2 _ =>
      exact le_trans h1
        (psLoop_best_mono score dims w u1 u2 rand n ⟨ps2, _, _⟩ k2)

/-- C3: the tracked global best score never decreases across the steps of
a run, and _find_best_particle either leaves (best_score, best_pos)
untouched or overwrites the pair with the best_score and best_pos of some
particle whose recorded score is strictly greater than the current best,
always replacing position and score together. -/
theorem global_best_monotone (score : List ℤ → ℚ) (dims : List ℕ)
    (w u1 u2 : ℚ) (rand : ℕ → ℚ) :
    (∀ (ps : List Particle) (bs : ℚ) (bp : Option (List ℤ)),
        bs ≤ (findBestParticle ps bs bp).1 ∧
        (findBestParticle ps bs bp = (bs, bp) ∨
          ∃ p ∈ ps, bs < (findBestParticle ps bs bp).1 ∧
            p.best_score = some (findBestParticle ps bs bp).1 ∧
            (findBestParticle ps bs bp).2 = some p.best_pos)) ∧
    (∀ (n : ℕ) (st : SwarmState) (k : ℕ),
        st.best_score ≤ (psLoop score dims w u1 u2 rand n st k).state.best_score) :=
  ⟨fun ps bs bp => ⟨findBest_le ps bs bp, findBest_char ps bs bp⟩,
    psLoop_best_mono score dims w u1 u2 rand⟩

theorem lookup_cons_isNone (v : ℚ) (q x : List ℤ) (c : Cache) :
    (lookupCache ((q, v) :: c) x).isNone =
      (decide (x ≠ q) && (lookupCache c x).isNone) := by
  by_cases h : q = x
  · subst h
    simp [lookupCache]
  · have h2 : x ≠ q := fun hx => h hx.symm
    simp [lookupCache, h, h2]

theorem runCache_calls (f : List ℤ → ℚ) :
    ∀ (qs : List (List ℤ)) (c : Cache),
      (runCache f qs c).2 =
        ((qs.filter fun x => (lookupCache c x).isNone).toFinset).card
  | [], c => by simp [runCache]
  | q :: qs, c => by
    cases hl : lookupCache c q with
    | some s =>
      have ihc := runCache_calls f qs c
      simp only [runCache, getOrEvaluate, hl]
      rw [List.filter_cons]
      simp only [hl, Option.isNone_some, if_false, Bool.false_eq_true]
      simpa using ihc
    | none =>
      have ihn := runCache_calls f qs ((q, f q) :: c)
      simp only [runCache, getOrEvaluate, hl]
      rw [ihn]
      have hfil : (qs.filter fun x => (lookupCache ((q, f q) :: c) x).isNone)
          = (qs.filter fun x => (lookupCache c x).isNone).filter
              (fun x => decide (x ≠ q)) := by
        rw [List.filter_filter]
        exact List.filter_congr (fun x _ => by rw [lookup_cons_isNone])
      rw [hfil, List.filter_cons]
      simp only [hl, Option.isNone_none, if_true]
      rw [List.toFinset_cons, List.toFinset_filter]
      have hset : Finset.filter (fun x => decide (x ≠ q) = true)
            (qs.filter fun x => (lookupCache c x).isNone).toFinset
          = ((qs.filter fun x => (lookupCache c x).isNone).toFinset).erase q := by
        rw [← Finset.filter_ne' ((qs.filter fun x => (lookupCache c x).isNone).toFinset) q]
        simp
      rw [hset]
      by_cases hq : q ∈ (qs.filter fun x => (lookupCache c x).isNone).toFinset
      · rw [Finset.insert_eq_self.mpr hq]
        have := Finset.card_erase_add_one hq
        omega
      · rw [Finset.card_insert_of_not_mem hq, Finset.erase_eq_of_not_mem hq]
        omega

/-- C4 (cache modelled from the spec, the base module holding it is not
among the given sources): a Position already in the cache is answered
from the cache with zero evaluator calls and an unchanged cache, and over
any sequence of requests of a run starting from an empty cache — the
per-step particle evaluations and the final re-evaluation of the best
Position alike — the total number of evaluator calls equals the number of
distinct Positions requested, hence at most one call per distinct
Position. -/
theorem evaluator_called_once_per_position (f : List ℤ → ℚ) (c : Cache)
    (q : List ℤ) (s : ℚ) (h : lookupCache c q = some s) :
    getOrEvaluate f c q = (s, c, 0) ∧
    ∀ qs : List (List ℤ), (runCache f qs []).2 = qs.toFinset.card := by
  constructor
  · simp [getOrEvaluate, h]
  · intro qs
    rw [runCache_calls]
    congr 1
    simp [lookupCache]

/-- C4 witness: a one-entry cache hit and the counting identity on a
concrete revisiting request sequence. -/
theorem evaluator_called_once_per_position_witness :
    lookupCache [([0], 7)] [0] = some 7 ∧
    (getOrEvaluate (fun _ => 0) [([0], 7)] [0] = (7, [([0], 7)], 0) ∧
      ∀ qs : List (List ℤ), (runCache (fun _ => 0) qs []).2 = qs.toFinset.card) :=
  ⟨rfl, evaluator_called_once_per_position (fun _ => 0) [([0], 7)] [0] 7 rfl⟩

theorem validPos_length : ∀ {dims : List ℕ} {pos : List ℤ},
    validPos dims pos = true → pos.length = dims.length
  | [], [], _ => rfl
  | [], _ :: _, h => by simp [validPos] at h
  | _ :: _, [], h => by simp [validPos] at h
  | d :: ds, x :: xs, h => by
    simp only [validPos, Bool.and_eq_true] at h
    simp [validPos_length h.2]

theorem validPos_limitPos : ∀ (dims : List ℕ) (pos : List ℤ),
    (∀ d ∈ dims, 0 < d) → pos.length = dims.length →
    validPos dims (limitPos dims pos) = true
  | [], [], _, _ => rfl
  | [], _ :: _, _, hl => by simp at hl
  | _ :: _, [], _, hl => by simp at hl
  | d :: ds, x :: xs, hd, hl => by
    have hdpos : 0 < d := hd d (List.mem_cons_self d ds)
    have hrec := validPos_limitPos ds xs
      (fun e he => hd e (List.mem_cons_of_mem d he)) (by simpa using hl)
    simp only [limitPos, validPos, Bool.and_eq_true, decide_eq_true_eq]
    refine ⟨⟨le_max_left 0 _, ?_⟩, hrec⟩
    have h1 : (0:ℤ) < (d:ℤ) := by exact_mod_cast hdpos
    exact max_lt h1 (lt_of_le_of_lt (min_le_right x ((d:ℤ)-1)) (by omega))

theorem randomPositionAux_length (draw : ℕ → ℕ) :
    ∀ (dims : List ℕ) (i : ℕ),
      (randomPositionAux draw i dims).length = dims.length
  | [], _ => rfl
  | d :: ds, i => by
    simp [randomPositionAux, randomPositionAux_length draw ds (i+1)]

theorem validPos_randomPositionAux (draw : ℕ → ℕ) :
    ∀ (dims : List ℕ) (i : ℕ), (∀ d ∈ dims, 0 < d) →
      validPos dims (randomPositionAux draw i dims) = true
  | [], _, _ => rfl
  | d :: ds, i, hd => by
    simp only [randomPositionAux, validPos, Bool.and_eq_true, decide_eq_true_eq]
    refine ⟨⟨Int.natCast_nonneg _, ?_⟩, validPos_randomPositionAux draw ds (i+1)
      (fun e he => hd e (List.mem_cons_of_mem d he))⟩
    exact_mod_cast Nat.mod_lt _ (hd d (List.mem_cons_self d ds))

theorem smulVec_length (cq : ℚ) (v : List ℚ) :
    (smulVec cq v).length = v.length := by simp [smulVec]

theorem addVec_length (a b : List ℚ) :
    (addVec a b).length = min a.length b.length := by simp [addVec]

theorem subIntVec_length (a b : List ℤ) :
    (subIntVec a b).length = min a.length b.length := by simp [subIntVec]

theorem vecAddIR_length (a : List ℤ) (v : List ℚ) :
    (vecAddIR a v).length = min a.length v.length := by
  unfold vecAddIR
  rw [List.length_zipWith]

theorem zeros_length (n : ℕ) : (zeros n).length = n := by simp [zeros]

theorem moveParticle_PInv (dims : List ℕ) (w u1 u2 r1 r2 : ℚ) (g : List ℤ)
    (hg : g.length = dims.length) (p : Particle) (hp : PInv dims p) :
    PInv dims (moveParticle w u1 u2 r1 r2 g p) := by
  obtain ⟨h1, h2, h3⟩ := hp
  have hb : p.best_pos.length = dims.length := validPos_length h3
  refine ⟨?_, ?_, ?_⟩ <;>
    simp [moveParticle, Particle.move, vecAddIR_length, addVec_length,
      smulVec_length, subIntVec_length, h1, h2, hb, hg, h3]

theorem evalParticles_PInv (score : List ℤ → ℚ) (dims : List ℕ)
    (ps : List Particle) (h : ∀ p ∈ ps, PInv dims p) :
    ∀ p ∈ evalParticles score dims ps, PInv dims p := by
  intro p hp
  simp only [evalParticles, List.mem_map] at hp
  obtain ⟨q, hq, rfl⟩ := hp
  exact h q hq

theorem findBest_bp_cases (ps : List Particle) (bs : ℚ)
    (bp : Option (List ℤ)) :
    (findBestParticle ps bs bp).2 = bp ∨
    ∃ p ∈ ps, (findBestParticle ps bs bp).2 = some p.best_pos := by
  rcases findBest_char ps bs bp with h | ⟨q, hq, _, _, h3⟩
  · left
    rw [h]
  · right
    exact ⟨q, hq, h3⟩

theorem findBest_bp_valid (dims : List ℕ) (ps : List Particle) (bs : ℚ)
    (bp : Option (List ℤ))
    (hps : ∀ p ∈ ps, validPos dims p.best_pos = true)
    (hbp : ∀ b, bp = some b → validPos dims b = true) :
    ∀ b, (findBestParticle ps bs bp).2 = some b → validPos dims b = true := by
  intro b hb
  rcases findBest_bp_cases ps bs bp with h | ⟨q, hq, h⟩
  · exact hbp b (h ▸ hb)
  · rw [h] at hb
    simp only [Option.some.injEq] at hb
    exact hb ▸ hps q hq

theorem moveParticles_PInv (dims : List ℕ) (w u1 u2 : ℚ) (rand : ℕ → ℚ)
    (g : List ℤ) (hg : g.length = dims.length) :
    ∀ (ps : List Particle) (k : ℕ), (∀ p ∈ ps, PInv dims p) →
      ∀ p ∈ (moveParticles w u1 u2 rand g ps k).1, PInv dims p
  | [], k, _ => by simp [moveParticles]
  | p :: ps, k, h => by
    intro x hx
    simp only [moveParticles] at hx
    rcases List.mem_cons.mp hx with rfl | hx2
    · exact moveParticle_PInv dims w u1 u2 _ _ g hg p
        (h p (List.mem_cons_self p ps))
    · exact moveParticles_PInv dims w u1 u2 rand g hg ps (k+2)
        (fun q hq => h q (List.mem_cons_of_mem p hq)) x hx2

theorem movePhase_error_eq (w u1 u2 : ℚ) (rand : ℕ → ℚ)
    (bp : Option (List ℤ)) (ps : List Particle) (k : ℕ) (e : PyErr)
    (h : movePhase w u1 u2 rand bp ps k = .error e) :
    e = PyErr.typeErrorNoneSub := by
  cases ps with
  | nil => simp [movePhase] at h
  | cons p ps =>
    cases bp with
    | none =>
      simp only [movePhase, Except.error.injEq] at h
      exact h.symm
    | some g => simp [movePhase] at h

theorem movePhase_ok_PInv (dims : List ℕ) (w u1 u2 : ℚ) (rand : ℕ → ℚ)
    (bp : Option (List ℤ)) (ps : List Particle) (k : ℕ)
    (ps2 : List Particle) (k2 : ℕ)
    (hps : ∀ p ∈ ps, PInv dims p)
    (hbp : ∀ b, bp = some b → validPos dims b = true)
    (h : movePhase w u1 u2 rand bp ps k = .ok (ps2, k2)) :
    ∀ p ∈ ps2, PInv dims p := by
  cases ps with
  | nil =>
    simp only [movePhase, Except.ok.injEq, Prod.mk.injEq] at h
    rw [← h.1]
    simp
  | cons p ps =>
    cases bp with
    | none => simp [movePhase] at h
    | some g =>
      simp only [movePhase, Except.ok.injEq] at h
      have hg : g.length = dims.length := validPos_length (hbp g rfl)
      have h2 : (moveParticles w u1 u2 rand g (p :: ps) k).1 = ps2 := by
        rw [h]
      rw [← h2]
      exact moveParticles_PInv dims w u1 u2 rand g hg (p :: ps) k hps

theorem evalPositions_valid (dims : List ℕ) (hd : ∀ d ∈ dims, 0 < d)
    (ps : List Particle) (h : ∀ p ∈ ps, PInv dims p) :
    ∀ q ∈ evalPositions dims ps, validPos dims q = true := by
  intro q hq
  simp only [evalPositions, List.mem_map] at hq
  obtain ⟨p, hp, rfl⟩ := hq
  exact validPos_limitPos dims p.pos hd (h p hp).1

theorem psLoop_SInv (score : List ℤ → ℚ) (dims : List ℕ) (w u1 u2 : ℚ)
    (rand : ℕ → ℚ) (hd : ∀ d ∈ dims, 0 < d) :
    ∀ (n : ℕ) (st : SwarmState) (k : ℕ), SInv dims st →
      SInv dims (psLoop score dims w u1 u2 rand n st k).state ∧
      (∀ q ∈ (psLoop score dims w u1 u2 rand n st k).trace,
        validPos dims q = true) ∧
      (∀ e, (psLoop score dims w u1 u2 rand n st k).err = some e →
        e = PyErr.typeErrorNoneSub)
  | 0, st, k, hst => by
    refine ⟨hst, ?_, ?_⟩ <;> simp [psLoop]
  | n+1, st, k, hst => by
    obtain ⟨hp, hb⟩ := hst
    have hp1 := evalParticles_PInv score dims st.particles hp
    have hb1 := findBest_bp_valid dims (evalParticles score dims st.particles)
      st.best_score st.best_pos (fun p hpp => (hp1 p hpp).2.2) hb
    have htr := evalPositions_valid dims hd st.particles hp
    unfold psLoop
    dsimp only
    split
    · next e heq =>
      have he := movePhase_error_eq _ _ _ _ _ _ _ _ heq
      refine ⟨⟨hp1, hb1⟩, htr, ?_⟩
      intro e2 he2
      simp only [Option.some.injEq] at he2
      rw [← he2]
      exact he
    · next ps2 k2 heq =>
      have hp2 := movePhase_ok_PInv dims w u1 u2 rand _ _ k ps2 k2 hp1 hb1 heq
      have ih := psLoop_SInv score dims w u1 u2 rand hd n
        ⟨ps2, (findBestParticle (evalParticles score dims st.particles)
            st.best_score st.best_pos).1,
          (findBestParticle (evalParticles score dims st.particles)
            st.best_score st.best_pos).2⟩ k2 ⟨hp2, hb1⟩
      refine ⟨ih.1, ?_, ih.2.2⟩
      intro q hq
      rcases List.mem_append.mp hq with h | h
      · exact htr q h
      · exact ih.2.1 q h

theorem initParticles_PInv (dims : List ℕ) (hd : ∀ d ∈ dims, 0 < d)
    (nP : ℕ) (draw : ℕ → ℕ → ℕ) :
    ∀ p ∈ initParticles nP dims draw, PInv dims p := by
  intro p hp
  simp only [initParticles, List.mem_map] at hp
  obtain ⟨i, _, rfl⟩ := hp
  exact ⟨by simp [randomPosition, randomPositionAux_length],
    zeros_length dims.length,
    validPos_randomPositionAux _ dims 0 hd⟩

/-- C5: every Position handed to the decode/evaluate boundary during the
particle evaluations is the _limit_pos clamp of the particle's raw
position (every clamped vector of full dimensionality is a valid index
vector), every Position in the run's evaluation trace is in range, and
the final decode of the global best position never fails with
IndexOutOfBounds (the best position, when set, is always in range). -/
theorem eval_positions_always_in_range (score : List ℤ → ℚ) (dims : List ℕ)
    (rand : ℕ → ℚ) (draw : ℕ → ℕ → ℕ) (nSearches nJobs nParticles : ℕ)
    (hd : ∀ d ∈ dims, 0 < d) :
    (∀ pos : List ℤ, pos.length = dims.length →
        validPos dims (limitPos dims pos) = true) ∧
    (∀ q ∈ (startPSO score dims W c1 c2 rand draw
        nSearches nJobs nParticles).trace, validPos dims q = true) ∧
    (startPSO score dims W c1 c2 rand draw nSearches nJobs nParticles).result ≠
      .error PyErr.indexOutOfBounds := by
  have hinit : SInv dims ⟨initParticles nParticles dims draw, 0, none⟩ :=
    ⟨initParticles_PInv dims hd nParticles draw, fun b hb => by cases hb⟩
  have hloop := psLoop_SInv score dims W c1 c2 rand hd (nSearches / nJobs)
    ⟨initParticles nParticles dims draw, 0, none⟩ 0 hinit
  refine ⟨fun pos hl => validPos_limitPos dims pos hd hl, ?_⟩
  unfold startPSO
  dsimp only
  split
  · next e heq =>
    refine ⟨hloop.2.1, ?_⟩
    have he := hloop.2.2 e heq
    rw [he]
    simp
  · next heq =>
    split
    · next hbp =>
      refine ⟨hloop.2.1, by simp⟩
    · next bp hbp =>
      have hv := hloop.1.2 bp hbp
      rw [if_pos hv]
      refine ⟨?_, by simp⟩
      intro q hq
      rcases List.mem_append.mp hq with h | h
      · exact hloop.2.1 q h
      · rw [List.mem_singleton] at h
        rw [h]
        exact hv

/-- C5 witness: a two-dimensional space with positive dimension sizes. -/
theorem eval_positions_always_in_range_witness :
    (∀ d ∈ [2, 3], 0 < d) ∧
    ((∀ pos : List ℤ, pos.length = ([2, 3] : List ℕ).length →
        validPos [2, 3] (limitPos [2, 3] pos) = true) ∧
      (∀ q ∈ (startPSO (fun _ => 1) [2, 3] W c1 c2 (fun _ => 0) (fun _ _ => 0)
          2 1 1).trace, validPos [2, 3] q = true) ∧
      (startPSO (fun _ => 1) [2, 3] W c1 c2 (fun _ => 0) (fun _ _ => 0)
          2 1 1).result ≠ .error PyErr.indexOutOfBounds) :=
  ⟨by decide, eval_positions_always_in_range (fun _ => 1) [2, 3] (fun _ => 0)
    (fun _ _ => 0) 2 1 1 (by decide)⟩

theorem smulVec_zeros (cq : ℚ) (n : ℕ) : smulVec cq (zeros n) = zeros n := by
  simp [smulVec, zeros, List.map_replicate]

theorem smulVec_zero : ∀ v : List ℚ, smulVec 0 v = zeros v.length
  | [] => rfl
  | x :: xs => by
    show (0 * x) :: smulVec 0 xs = 0 :: zeros xs.length
    rw [zero_mul, smulVec_zero xs]

theorem addVec_zeros : ∀ m n : ℕ, addVec (zeros m) (zeros n) = zeros (min m n)
  | 0, n => by simp [addVec, zeros]
  | m+1, 0 => by simp [addVec, zeros]
  | m+1, n+1 => by
    have hmin : min (m+1) (n+1) = min m n + 1 := by omega
    rw [hmin]
    show (0 + 0 : ℚ) :: addVec (zeros m) (zeros n) = 0 :: zeros (min m n)
    rw [add_zero, addVec_zeros m n]

theorem addVec_zeros_right : ∀ v : List ℚ, addVec v (zeros v.length) = v
  | [] => rfl
  | x :: xs => by
    show (x + 0) :: addVec xs (zeros xs.length) = x :: xs
    rw [add_zero, addVec_zeros_right xs]

theorem addVec_zeros_right_of (v : List ℚ) (n : ℕ) (h : v.length = n) :
    addVec v (zeros n) = v := by
  subst h
  exact addVec_zeros_right v

theorem vecAddIR_zeros :
    ∀ p : List ℤ, vecAddIR p (zeros p.length) = p.map (fun a : ℤ => (a : ℚ))
  | [] => rfl
  | a :: as => by
    show ((a : ℚ) + 0) :: vecAddIR as (zeros as.length) =
      (a : ℚ) :: as.map (fun a : ℤ => (a : ℚ))
    rw [add_zero, vecAddIR_zeros as]

theorem ratTrunc_intCast (n : ℤ) : ratTrunc ((n : ℤ) : ℚ) = n := by
  unfold ratTrunc
  rw [Rat.num_intCast, Rat.den_intCast]
  exact Int.tdiv_one n

theorem map_ratTrunc_intCast (p : List ℤ) :
    (p.map (fun a : ℤ => (a : ℚ))).map ratTrunc = p := by
  rw [List.map_map]
  have h : (ratTrunc ∘ fun a : ℤ => (a : ℚ)) = id :=
    funext fun a => ratTrunc_intCast a
  rw [h, List.map_id]

theorem moveParticle_zero_velocity (w r1 r2 : ℚ) (g : List ℤ) (p : Particle)
    (d : ℕ) (hp : p.pos.length = d) (hv : p.velo.length = d)
    (hb : p.best_pos.length = d) (hg : g.length = d) :
    (moveParticle w 0 0 r1 r2 g p).velo = smulVec w p.velo := by
  show addVec (addVec (smulVec w p.velo)
      (smulVec (0 * r1) (subIntVec p.best_pos p.pos)))
      (smulVec (0 * r2) (subIntVec g p.pos)) = smulVec w p.velo
  rw [zero_mul, zero_mul, smulVec_zero, smulVec_zero, subIntVec_length,
    subIntVec_length, hb, hp, hg, min_self,
    addVec_zeros_right_of _ _
      (by rw [addVec_length, smulVec_length, hv, zeros_length, min_self]),
    addVec_zeros_right_of _ _ (by rw [smulVec_length, hv])]

theorem moveParticle_zero_inert (w r1 r2 : ℚ) (g : List ℤ) (p : Particle)
    (d : ℕ) (hp : p.pos.length = d) (hv : p.velo = zeros d)
    (hb : p.best_pos.length = d) (hg : g.length = d) :
    moveParticle w 0 0 r1 r2 g p = p := by
  have hnv : addVec (addVec (smulVec w p.velo)
      (smulVec (0 * r1) (subIntVec p.best_pos p.pos)))
      (smulVec (0 * r2) (subIntVec g p.pos)) = zeros d := by
    rw [hv, smulVec_zeros, zero_mul, zero_mul, smulVec_zero, smulVec_zero,
      subIntVec_length, subIntVec_length, hb, hp, hg, min_self,
      addVec_zeros, min_self, addVec_zeros, min_self]
  have hmv : moveParticle w 0 0 r1 r2 g p =
      ⟨(vecAddIR p.pos (addVec (addVec (smulVec w p.velo)
          (smulVec (0 * r1) (subIntVec p.best_pos p.pos)))
          (smulVec (0 * r2) (subIntVec g p.pos)))).map ratTrunc,
        addVec (addVec (smulVec w p.velo)
          (smulVec (0 * r1) (subIntVec p.best_pos p.pos)))
          (smulVec (0 * r2) (subIntVec g p.pos)),
        p.best_pos, p.best_score⟩ := rfl
  rw [hmv, hnv]
  have hpos : (vecAddIR p.pos (zeros d)).map ratTrunc = p.pos := by
    rw [← hp, vecAddIR_zeros, map_ratTrunc_intCast]
  rw [hpos, ← hv]

theorem evalParticles_map_stripScore (score : List ℤ → ℚ) (dims : List ℕ)
    (ps : List Particle) :
    (evalParticles score dims ps).map stripScore = ps.map stripScore := by
  unfold evalParticles
  rw [List.map_map]
  rfl

theorem evalParticles_inert (score : List ℤ → ℚ) (dims : List ℕ)
    (ps : List Particle) (d : ℕ)
    (h : ∀ p ∈ ps, p.pos.length = d ∧ p.velo = zeros d ∧
      p.best_pos.length = d) :
    ∀ p ∈ evalParticles score dims ps, p.pos.length = d ∧
      p.velo = zeros d ∧ p.best_pos.length = d := by
  intro p hp
  simp only [evalParticles, List.mem_map] at hp
  obtain ⟨q, hq, rfl⟩ := hp
  exact h q hq

theorem findBest_bp_length (ps : List Particle) (bs : ℚ)
    (bp : Option (List ℤ)) (d : ℕ)
    (hps : ∀ p ∈ ps, p.best_pos.length = d)
    (hbp : ∀ b, bp = some b → b.length = d) :
    ∀ b, (findBestParticle ps bs bp).2 = some b → b.length = d := by
  intro b hb
  rcases findBest_bp_cases ps bs bp with h | ⟨q, hq, h⟩
  · exact hbp b (h ▸ hb)
  · rw [h] at hb
    simp only [Option.some.injEq] at hb
    exact hb ▸ hps q hq

theorem moveParticles_zero_inert (w : ℚ) (rand : ℕ → ℚ) (g : List ℤ) (d : ℕ)
    (hg : g.length = d) :
    ∀ (ps : List Particle) (k : ℕ),
      (∀ p ∈ ps, p.pos.length = d ∧ p.velo = zeros d ∧
        p.best_pos.length = d) →
      (moveParticles w 0 0 rand g ps k).1 = ps
  | [], _, _ => rfl
  | p :: ps, k, h => by
    have hp := h p (List.mem_cons_self p ps)
    show moveParticle w 0 0 (rand k) (rand (k+1)) g p ::
        (moveParticles w 0 0 rand g ps (k+2)).1 = p :: ps
    rw [moveParticle_zero_inert w (rand k) (rand (k+1)) g p d hp.1 hp.2.1
        hp.2.2 hg,
      moveParticles_zero_inert w rand g d hg ps (k+2)
        (fun q hq => h q (List.mem_cons_of_mem p hq))]

theorem movePhase_zero_ok (w : ℚ) (rand : ℕ → ℚ) (d : ℕ)
    (bp : Option (List ℤ)) (ps : List Particle) (k : ℕ)
    (hin : ∀ p ∈ ps, p.pos.length = d ∧ p.velo = zeros d ∧
      p.best_pos.length = d)
    (hbp : ∀ b, bp = some b → b.length = d)
    (ps2 : List Particle) (k2 : ℕ)
    (h : movePhase w 0 0 rand bp ps k = .ok (ps2, k2)) :
    ps2 = ps := by
  cases ps with
  | nil =>
    simp only [movePhase, Except.ok.injEq, Prod.mk.injEq] at h
    exact h.1.symm
  | cons p ps =>
    cases bp with
    | none => simp [movePhase] at h
    | some g =>
      simp only [movePhase, Except.ok.injEq] at h
      have h2 : (moveParticles w 0 0 rand g (p :: ps) k).1 = ps2 := by
        rw [h]
      rw [← h2]
      exact moveParticles_zero_inert w rand g d (hbp g rfl) (p :: ps) k hin

theorem psLoop_zero_inert (score : List ℤ → ℚ) (dims : List ℕ) (w : ℚ)
    (rand : ℕ → ℚ) :
    ∀ (n : ℕ) (st : SwarmState) (k : ℕ),
      (∀ p ∈ st.particles, p.pos.length = dims.length ∧
        p.velo = zeros dims.length ∧ p.best_pos.length = dims.length) →
      (∀ b, st.best_pos = some b → b.length = dims.length) →
      (psLoop score dims w 0 0 rand n st k).state.particles.map stripScore =
        st.particles.map stripScore
  | 0, st, k, _, _ => rfl
  | n+1, st, k, hin, hbp => by
    have hin1 := evalParticles_inert score dims st.particles dims.length hin
    have hbp1 := findBest_bp_length (evalParticles score dims st.particles)
      st.best_score st.best_pos dims.length (fun p hp => (hin1 p hp).2.2) hbp
    unfold psLoop
    dsimp only
    split
    · next e heq =>
      exact evalParticles_map_stripScore score dims st.particles
    · next ps2 k2 heq =>
      have hps2 := movePhase_zero_ok w rand dims.length _ _ k hin1 hbp1
        ps2 k2 heq
      have ih := psLoop_zero_inert score dims w rand n
        ⟨ps2, (findBestParticle (evalParticles score dims st.particles)
            st.best_score st.best_pos).1,
          (findBestParticle (evalParticles score dims st.particles)
            st.best_score st.best_pos).2⟩ k2
        (by rw [hps2]; exact hin1) hbp1
      rw [ih]
      dsimp only
      rw [hps2]
      exact evalParticles_map_stripScore score dims st.particles

/-- C7: with both the cognitive and the social coefficient equal to zero
the move step is pure inertia: the replaced velocity is w times the old
velocity (for particles and a global best of the search-space
dimensionality), and since _init_particles starts every particle with the
zero velocity vector, after any number T of loop steps every particle
still has its initial position, velocity and recorded best position — no
drift toward any best occurs. -/
theorem zero_coefficients_pure_inertia (score : List ℤ → ℚ) (dims : List ℕ)
    (w : ℚ) (rand : ℕ → ℚ) (draw : ℕ → ℕ → ℕ) (nParticles T : ℕ) :
    (∀ (r1 r2 : ℚ) (g : List ℤ) (p : Particle) (d : ℕ),
        p.pos.length = d → p.velo.length = d → p.best_pos.length = d →
        g.length = d →
        (moveParticle w 0 0 r1 r2 g p).velo = smulVec w p.velo) ∧
    (psLoop score dims w 0 0 rand T
        ⟨initParticles nParticles dims draw, 0, none⟩ 0).state.particles.map
          stripScore =
      (initParticles nParticles dims draw).map stripScore := by
  constructor
  · intro r1 r2 g p d h1 h2 h3 h4
    exact moveParticle_zero_velocity w r1 r2 g p d h1 h2 h3 h4
  · apply psLoop_zero_inert
    · intro p hp
      simp only [initParticles, List.mem_map] at hp
      obtain ⟨i, _, rfl⟩ := hp
      exact ⟨by simp [randomPosition, randomPositionAux_length], rfl,
        by simp [randomPosition, randomPositionAux_length]⟩
    · intro b hb
      cases hb

/-- C7 witness: a one-dimensional particle with zero velocity. -/
theorem zero_coefficients_pure_inertia_witness :
    ((⟨[0], [0], [1], none⟩ : Particle).pos.length = 1 ∧
      (⟨[0], [0], [1], none⟩ : Particle).velo.length = 1 ∧
      (⟨[0], [0], [1], none⟩ : Particle).best_pos.length = 1 ∧
      ([1] : List ℤ).length = 1) ∧
    (moveParticle (1/2) 0 0 (1/4) (3/4) [1] ⟨[0], [0], [1], none⟩).velo =
      smulVec (1/2) (⟨[0], [0], [1], none⟩ : Particle).velo :=
  ⟨⟨rfl, rfl, rfl, rfl⟩,
    (zero_coefficients_pure_inertia (fun _ => 0) [2] (1/2) (fun _ => 0)
        (fun _ _ => 0) 1 1).1 (1/4) (3/4) [1] ⟨[0], [0], [1], none⟩ 1
      rfl rfl rfl rfl⟩

theorem findBest_no_update : ∀ (ps : List Particle) (bs : ℚ)
    (bp : Option (List ℤ)),
    (∀ p ∈ ps, ∀ s, p.best_score = some s → s ≤ bs) →
    findBestParticle ps bs bp = (bs, bp)
  | [], _, _, _ => rfl
  | p :: ps, bs, bp, h => by
    unfold findBestParticle
    cases hs : p.best_score with
    | none =>
      exact findBest_no_update ps bs bp
        (fun q hq => h q (List.mem_cons_of_mem p hq))
    | some s =>
      dsimp only
      rw [if_neg (not_lt.mpr (h p (List.mem_cons_self p ps) s hs))]
      exact findBest_no_update ps bs bp
        (fun q hq => h q (List.mem_cons_of_mem p hq))

theorem evalParticles_scores_nonpos (score : List ℤ → ℚ) (dims : List ℕ)
    (hs : ∀ pos, score pos ≤ 0) (ps : List Particle) :
    ∀ p ∈ evalParticles score dims ps, ∀ s, p.best_score = some s →
      s ≤ (0:ℚ) := by
  intro p hp s hsc
  simp only [evalParticles, List.mem_map] at hp
  obtain ⟨q, hq, rfl⟩ := hp
  dsimp only at hsc
  obtain rfl := Option.some.inj hsc
  exact hs _

theorem psLoop_nonpos (score : List ℤ → ℚ) (dims : List ℕ) (w u1 u2 : ℚ)
    (rand : ℕ → ℚ) (hs : ∀ pos, score pos ≤ 0) :
    ∀ (n : ℕ) (st : SwarmState) (k : ℕ),
      st.best_score = 0 → st.best_pos = none →
      (psLoop score dims w u1 u2 rand n st k).state.best_score = 0 ∧
      (psLoop score dims w u1 u2 rand n st k).state.best_pos = none
  | 0, st, k, h0, hn => by
    refine ⟨?_, ?_⟩ <;> simp [psLoop, h0, hn]
  | n+1, st, k, h0, hn => by
    have hfb : findBestParticle (evalParticles score dims st.particles)
        st.best_score st.best_pos = (st.best_score, st.best_pos) :=
      findBest_no_update _ _ _
        (fun p hp s hsc => h0 ▸ evalParticles_scores_nonpos score dims hs
          st.particles p hp s hsc)
    unfold psLoop
    dsimp only
    split
    · next e heq =>
      rw [h0, hn] at hfb
      refine ⟨?_, ?_⟩ <;> simp [hfb, h0, hn]
    · next ps2 k2 heq =>
      have ih := psLoop_nonpos score dims w u1 u2 rand hs n
        ⟨ps2, (findBestParticle (evalParticles score dims st.particles)
            st.best_score st.best_pos).1,
          (findBestParticle (evalParticles score dims st.particles)
            st.best_score st.best_pos).2⟩ k2
        (by rw [hfb]; exact h0) (by rw [hfb]; exact hn)
      exact ih

/-- C8: self.best_score starts at 0, self.best_pos starts as None, and
_find_best_particle only overwrites them on a strictly greater score, so
in a run where every evaluation returns a score less than or equal to 0
the global best position stays None and the best score stays 0 for the
whole run, and the run ends in an error rather than returning a best
result: an optimum whose true score is 0 or negative is never recorded. -/
theorem nonpositive_scores_leave_best_unset (score : List ℤ → ℚ)
    (dims : List ℕ) (rand : ℕ → ℚ) (draw : ℕ → ℕ → ℕ)
    (nSearches nJobs nParticles : ℕ) (hs : ∀ pos, score pos ≤ 0) :
    (startPSO score dims W c1 c2 rand draw
        nSearches nJobs nParticles).state.best_pos = none ∧
    (startPSO score dims W c1 c2 rand draw
        nSearches nJobs nParticles).state.best_score = 0 ∧
    ∃ e, (startPSO score dims W c1 c2 rand draw
        nSearches nJobs nParticles).result = .error e := by
  have hloop := psLoop_nonpos score dims W c1 c2 rand hs (nSearches / nJobs)
    ⟨initParticles nParticles dims draw, 0, none⟩ 0 rfl rfl
  unfold startPSO
  dsimp only
  split
  · next e heq => exact ⟨hloop.2, hloop.1, e, rfl⟩
  · next heq =>
    split
    · next hbp => exact ⟨hloop.2, hloop.1, PyErr.typeErrorNoneDecode, rfl⟩
    · next bp hbp =>
      rw [hloop.2] at hbp
      cases hbp

/-- C8 witness: the constant-zero evaluator over a one-dimensional space,
one step, one particle. -/
theorem nonpositive_scores_leave_best_unset_witness :
    (∀ pos : List ℤ, (fun _ : List ℤ => (0:ℚ)) pos ≤ 0) ∧
    ((startPSO (fun _ => 0) [2] W c1 c2 (fun _ => 0) (fun _ _ => 0)
        1 1 1).state.best_pos = none ∧
      (startPSO (fun _ => 0) [2] W c1 c2 (fun _ => 0) (fun _ _ => 0)
        1 1 1).state.best_score = 0 ∧
      ∃ e, (startPSO (fun _ => 0) [2] W c1 c2 (fun _ => 0) (fun _ _ => 0)
        1 1 1).result = .error e) :=
  ⟨fun _ => le_refl 0,
    nonpositive_scores_leave_best_unset (fun _ => 0) [2] (fun _ => 0)
      (fun _ _ => 0) 1 1 1 (fun _ => le_refl 0)⟩

end Hyperactive
